import Mathlib

/-!
Verification of the LiveCodeBench custom evaluator
(`src/lcb_runner/runner/custom_evaluator.py`).

The development shallowly embeds the evaluator's candidate-output pipeline:
loading and shape-checking the candidate collection, scenario-specific
sorting and extraction, code cleaning (`clean_code_output`), syntactic
validity filtering (`is_valid_python`), the positional zips that attach
outputs to benchmark instances, and the output-path derivations.

Python strings are modelled as `List Char` (Unicode code points), Python
exceptions as an explicit error type threaded through `Except`, and the
stateful script as pure functions over the loaded JSON value.
-/

/-- Python string: a sequence of Unicode code points. -/
abbrev PyStr := List Char

/-- Python exceptions that the evaluator can raise or catch. -/
inductive PyErr
  | assertionError
  | keyError
  | indexError
  | valueError
  | syntaxError
deriving DecidableEq, Repr

/-- Evaluation of a list of fallible computations, stopping at the first
raised exception, as a Python list comprehension does. -/
def exMapM (f : α → Except PyErr β) : List α → Except PyErr (List β)
  | [] => Except.ok []
  | a :: as =>
    match f a with
    | Except.error e => Except.error e
    | Except.ok b =>
      match exMapM f as with
      | Except.error e => Except.error e
      | Except.ok bs => Except.ok (b :: bs)

/-- Whether an `Except` value is a normal (non-raising) result. -/
def exOkB : Except PyErr α → Bool
  | Except.ok _ => true
  | Except.error _ => false

/-- Characters removed by Python `str.strip()` (ASCII whitespace; the model
restricts Python's Unicode whitespace set to the ASCII range). -/
def pySpaceB (c : Char) : Bool :=
  (c = ' ') || (c = '\t') || (c = '\n') || (c = '\r') || (c = '\x0b') || (c = '\x0c')

/-- Python `str.strip()`: drop leading and trailing whitespace. -/
def pyStrip (l : PyStr) : PyStr :=
  ((l.dropWhile pySpaceB).reverse.dropWhile pySpaceB).reverse

/-- Index of the first occurrence of `pat` as a contiguous block of `l`. -/
def firstIdx (pat : PyStr) : PyStr → Option Nat
  | [] => if pat.isEmpty then some 0 else none
  | c :: rest =>
    if pat.isPrefixOf (c :: rest) then some 0
    else (firstIdx pat rest).map (· + 1)

/-- Opening delimiter of the regex `r"```python\n(.*?)\n```"` used by
`clean_code_output`. -/
def openTagL : PyStr := ("```python\n").toList

/-- Closing delimiter of the regex `r"```python\n(.*?)\n```"`. -/
def closeTagL : PyStr := ("\n```").toList

/-- Semantics of `re.search(r"```python\n(.*?)\n```", code, re.DOTALL)`:
try each start position from the left; at a position where the opening
delimiter matches and a closing delimiter occurs afterwards, the lazy group
captures the shortest content up to the first closing delimiter. Returns
the captured group. -/
def fencedSearch : PyStr → Option PyStr
  | [] => none
  | c :: rest =>
    if openTagL.isPrefixOf (c :: rest) then
      match firstIdx closeTagL ((c :: rest).drop openTagL.length) with
      | some k => some (((c :: rest).drop openTagL.length).take k)
      | none => fencedSearch rest
    else fencedSearch rest

/-- Embedding of `clean_code_output`: extract the fenced Python block if the
regex matches, then strip surrounding whitespace. -/
def clean_code_output (code : PyStr) : PyStr :=
  match fencedSearch code with
  | some content => pyStrip content
  | none => pyStrip code

/-- Characters that can appear in the modelled fragment of syntactically
valid Python source (backquotes and other stray symbols are always syntax
errors in Python 3). -/
def legalPyCharB (c : Char) : Bool :=
  c.isAlphanum || (c = '_') || pySpaceB c ||
  (c = '+') || (c = '-') || (c = '*') || (c = '/') || (c = '%') ||
  (c = '=') || (c = '<') || (c = '>') || (c = '!') || (c = '&') ||
  (c = '|') || (c = '^') || (c = '~') || (c = '@') || (c = ',') ||
  (c = ':') || (c = ';') || (c = '.') || (c = '(') || (c = ')') ||
  (c = '[') || (c = ']') || (c = Char.ofNat 123) || (c = Char.ofNat 125)

/-- Matching open bracket for a close bracket. -/
def bracketMatch (c : Char) : Char :=
  if c = ')' then '(' else if c = ']' then '[' else Char.ofNat 123

/-- Bracket-balance check over the source, with an explicit stack. -/
def balChk : PyStr → List Char → Bool
  | [], stack => stack.isEmpty
  | c :: cs, stack =>
    if (c = '(') || (c = '[') || (c = Char.ofNat 123) then
      balChk cs (c :: stack)
    else if (c = ')') || (c = ']') || (c = Char.ofNat 125) then
      match stack with
      | [] => false
      | top :: stack' => (top = bracketMatch c) && balChk cs stack'
    else balChk cs stack

/-- Modelled from the spec: syntactic validity of Python source as checked
by CPython's `ast.parse` (the `ast` module is standard-library code outside
this repository, specified here only at its interface: parse or signal a
syntax error). The model covers a fragment sufficient for the spec's cited
programs: source without string literals or comments is valid only if every
character is legal Python surface syntax and all brackets balance. -/
def pySyntaxOk (code : PyStr) : Bool :=
  code.all legalPyCharB && balChk code []

/-- Modelled from the spec: `ast.parse` raising a `SyntaxError` exactly on
syntactically invalid source. -/
def ast_parse (code : PyStr) : Except PyErr Unit :=
  if pySyntaxOk code then Except.ok () else Except.error PyErr.syntaxError

/-- Embedding of `is_valid_python`: call `ast.parse`, catch `SyntaxError`
(and only `SyntaxError`) returning `False`, return `True` on success; any
other exception would propagate. -/
def is_valid_python (code : PyStr) : Except PyErr Bool :=
  match ast_parse code with
  | Except.ok _ => Except.ok true
  | Except.error PyErr.syntaxError => Except.ok false
  | Except.error e => Except.error e

/-- Value of `is_valid_python` at non-raising inputs, as a plain Boolean. -/
def is_valid_pythonB (code : PyStr) : Bool :=
  pySyntaxOk code

/-- Strict lexicographic comparison of Python strings by code point. -/
def lexLt : PyStr → PyStr → Bool
  | [], [] => false
  | [], _ :: _ => true
  | _ :: _, [] => false
  | a :: as, b :: bs =>
    if a.toNat < b.toNat then true
    else if b.toNat < a.toNat then false
    else lexLt as bs

/-- Non-strict lexicographic comparison of Python strings by code point. -/
def lexLe : PyStr → PyStr → Bool
  | [], _ => true
  | _ :: _, [] => false
  | a :: as, b :: bs =>
    if a.toNat < b.toNat then true
    else if b.toNat < a.toNat then false
    else lexLe as bs

/-- Python `str.split(sep)` for a one-character separator: every occurrence
of the separator starts a new segment, so the result always has one more
segment than there are separators. -/
def pySplit (sep : Char) : PyStr → List PyStr
  | [] => [[]]
  | c :: rest =>
    if c = sep then [] :: pySplit sep rest
    else
      match pySplit sep rest with
      | [] => [[c]]
      | w :: ws => (c :: w) :: ws

/-- Numeric value of a digit string. -/
def natOfDigits : PyStr → Nat :=
  List.foldl (fun acc c => acc * 10 + (c.toNat - 48)) 0

/-- Python `int(s)` on the modelled fragment: an optional sign followed by
at least one decimal digit (surrounding whitespace and digit-group
underscores, which Python also accepts, are outside the fragment);
any other string raises `ValueError`, signalled here by `none`. -/
def pyInt : PyStr → Option Int
  | '-' :: rest =>
    if rest ≠ [] ∧ rest.all Char.isDigit then some (-(Int.ofNat (natOfDigits rest))) else none
  | '+' :: rest =>
    if rest ≠ [] ∧ rest.all Char.isDigit then some (Int.ofNat (natOfDigits rest)) else none
  | l =>
    if l ≠ [] ∧ l.all Char.isDigit then some (Int.ofNat (natOfDigits l)) else none

/-- Modelled from the spec: the `Scenario` enumeration
(`lcb_runner/utils/scenarios.py` is not under `src/`): the four evaluation
modes routed by the evaluator. -/
inductive Scenario
  | codegeneration
  | selfrepair
  | testoutputprediction
  | codeexecution
deriving DecidableEq, Repr

/-- Modelled from the spec: the string value of each `Scenario` member,
used in the derived output file name. -/
def Scenario.value : Scenario → PyStr
  | Scenario.codegeneration => ("codegeneration").toList
  | Scenario.selfrepair => ("selfrepair").toList
  | Scenario.testoutputprediction => ("testoutputprediction").toList
  | Scenario.codeexecution => ("codeexecution").toList

/-- Sort key produced by the scenario-specific `key=lambda x: ...` passed to
`sorted`: a string, a pair of strings, or an integer. -/
inductive SKey
  | s1 (a : PyStr)
  | s2 (a b : PyStr)
  | i1 (n : Int)
deriving DecidableEq, Repr

/-- Python `<=` on sort keys: code-point order on strings, lexicographic
order on string pairs, numeric order on integers. Keys of different kinds
never meet in one run; they are ranked by constructor so that the relation
is a total order on the whole type. -/
def SKey.leB : SKey → SKey → Bool
  | SKey.s1 a, SKey.s1 b => lexLe a b
  | SKey.s1 _, SKey.s2 _ _ => true
  | SKey.s1 _, SKey.i1 _ => true
  | SKey.s2 _ _, SKey.s1 _ => false
  | SKey.s2 a b, SKey.s2 c d =>
    if lexLt a c then true else if lexLt c a then false else lexLe b d
  | SKey.s2 _ _, SKey.i1 _ => true
  | SKey.i1 _, SKey.s1 _ => false
  | SKey.i1 _, SKey.s2 _ _ => false
  | SKey.i1 m, SKey.i1 n => m ≤ n

/-- One mapping-shaped candidate record: the JSON keys the evaluator reads,
each possibly absent. A `question_id` may be any JSON scalar in the file;
since the evaluator only ever uses it through `str(...)`, the model stores
the stringified value. -/
structure Dict where
  question_id : Option PyStr := none
  test_id : Option PyStr := none
  id : Option PyStr := none
  code_list : Option (List PyStr) := none
  pred_list : Option (List PyStr) := none
deriving DecidableEq, Repr

/-- One element of the loaded JSON list: the two shapes the evaluator
accepts (a list of candidate strings, or a mapping-shaped record). -/
inductive PyObj
  | lst (items : List PyStr)
  | dict (d : Dict)
deriving DecidableEq, Repr

/-- Whether an element is list-shaped. -/
def isLstB : PyObj → Bool
  | PyObj.lst _ => true
  | PyObj.dict _ => false

/-- Whether an element is mapping-shaped. -/
def isDictB : PyObj → Bool
  | PyObj.lst _ => false
  | PyObj.dict _ => true

/-- Scenario sort key of one record, with the exceptions the Python key
lambda can raise: `KeyError` for a missing key, `IndexError` when the
`id` of a code-execution record has no second underscore-delimited
segment, `ValueError` when that segment is not an integer literal. -/
def scKeyE (sc : Scenario) (d : Dict) : Except PyErr SKey :=
  match sc with
  | Scenario.codegeneration | Scenario.selfrepair =>
    match d.question_id with
    | none => Except.error PyErr.keyError
    | some q => Except.ok (SKey.s1 q)
  | Scenario.testoutputprediction =>
    match d.question_id with
    | none => Except.error PyErr.keyError
    | some q =>
      match d.test_id with
      | none => Except.error PyErr.keyError
      | some t => Except.ok (SKey.s2 q t)
  | Scenario.codeexecution =>
    match d.id with
    | none => Except.error PyErr.keyError
    | some s =>
      match (pySplit '_' s).get? 1 with
      | none => Except.error PyErr.indexError
      | some seg =>
        match pyInt seg with
        | none => Except.error PyErr.valueError
        | some n => Except.ok (SKey.i1 n)

/-- Scenario sort key of a record whose key data is present. -/
def keyPure (sc : Scenario) (d : Dict) : SKey :=
  match scKeyE sc d with
  | Except.ok k => k
  | Except.error _ => SKey.s1 []

/-- Scenario candidate field of one record: `code_list` for code generation
and self repair, `pred_list` otherwise; missing field raises `KeyError`. -/
def scFieldE (sc : Scenario) (d : Dict) : Except PyErr (List PyStr) :=
  match sc with
  | Scenario.codegeneration | Scenario.selfrepair =>
    match d.code_list with
    | none => Except.error PyErr.keyError
    | some f => Except.ok f
  | _ =>
    match d.pred_list with
    | none => Except.error PyErr.keyError
    | some f => Except.ok f

/-- Scenario candidate field of a record whose field is present. -/
def fieldPure (sc : Scenario) (d : Dict) : List PyStr :=
  match scFieldE sc d with
  | Except.ok f => f
  | Except.error _ => []

/-- Python `sorted(..., key=...)`: CPython computes the key of every element
in input order, sorts stably by key, and returns the reordered elements.
Insertion sort is stable, so it yields the same list as CPython's sort. -/
def sortPairs (l : List (SKey × Dict)) : List (SKey × Dict) :=
  List.insertionSort (fun p q => SKey.leB p.1 q.1 = true) l

/-- Alignment of a mapping-shaped collection (the `elif isinstance(..., dict)`
branch of `main`): compute every record's sort key, sort, then extract the
scenario candidate field in sorted order, cleaning each candidate with
`clean_code_output`. -/
def alignDicts (sc : Scenario) (ds : List Dict) : Except PyErr (List (List PyStr)) :=
  match exMapM (fun d =>
      match scKeyE sc d with
      | Except.error e => Except.error e
      | Except.ok k => Except.ok (k, d)) ds with
  | Except.error e => Except.error e
  | Except.ok keyed =>
    exMapM (fun d =>
        match scFieldE sc d with
        | Except.error e => Except.error e
        | Except.ok f => Except.ok (f.map clean_code_output))
      ((sortPairs keyed).map Prod.snd)

/-- The comprehension `[output for output in outputs_list if is_valid_python(output)]`:
filter one candidate list, propagating any exception `is_valid_python`
would raise. -/
def filterValid : List PyStr → Except PyErr (List PyStr)
  | [] => Except.ok []
  | s :: rest =>
    match is_valid_python s with
    | Except.error e => Except.error e
    | Except.ok b =>
      match filterValid rest with
      | Except.error e => Except.error e
      | Except.ok fs => Except.ok (if b then s :: fs else fs)

/-- Embedding of the candidate-processing part of `main`: load shape checks
(`custom_outputs[0]`, the two `assert all(...)` statements), the
scenario-specific sort-and-extract for mapping-shaped input, and the final
validity filter applied to every aligned list. -/
def processOutputs (sc : Scenario) (objs : List PyObj) : Except PyErr (List (List PyStr)) :=
  match objs with
  | [] => Except.error PyErr.indexError
  | first :: _ =>
    match
      (match first with
      | PyObj.lst _ =>
        if objs.all isLstB then
          Except.ok (objs.map (fun o =>
            match o with
            | PyObj.lst xs => xs
            | PyObj.dict _ => []))
        else Except.error PyErr.assertionError
      | PyObj.dict _ =>
        if objs.all isDictB then
          alignDicts sc (objs.filterMap (fun o =>
            match o with
            | PyObj.dict d => some d
            | PyObj.lst _ => none))
        else Except.error PyErr.assertionError) with
    | Except.error e => Except.error e
    | Except.ok aligned => exMapM filterValid aligned

/-- Modelled from the spec: a benchmark instance (the benchmark classes are
built by `build_prompt_benchmark`, outside `src/`): an opaque record with a
stable identifier. -/
structure Inst where
  qid : PyStr
deriving DecidableEq, Repr

/-- Modelled from the spec: the record returned by
`BenchmarkInstance.insert_output(rawOutputs, extractedOutputs)`. -/
structure SaveResult where
  inst : Inst
  raw : List PyStr
  extracted : List PyStr
deriving DecidableEq, Repr

/-- Modelled from the spec: `instance.insert_output` pairing an instance
with its raw and extracted outputs. -/
def insert_output (i : Inst) (raw extracted : List PyStr) : SaveResult :=
  { inst := i, raw := raw, extracted := extracted }

/-- The statement `save_results = [instance.insert_output(custom_output,
custom_output) for instance, custom_output in zip(benchmark, custom_outputs)]`:
Python `zip` pairs positionally and stops at the shorter collection. -/
def buildSaveResults (benchmark : List Inst) (outs : List (List PyStr)) : List SaveResult :=
  (benchmark.zip outs).map (fun p => insert_output p.1 p.2 p.2)

/-- Python three-collection `zip`, as used for
`zip(benchmark, combined_results, graded)`: truncates to the shortest. -/
def pyZip3 : List α → List β → List γ → List (α × β × γ)
  | a :: as, b :: bs, c :: cs => (a, b, c) :: pyZip3 as bs cs
  | _, _, _ => []

/-- Python four-collection `zip`, as used for the code-generation branch
`zip(benchmark, combined_results, graded, metadatas)`. -/
def pyZip4 : List α → List β → List γ → List δ → List (α × β × γ × δ)
  | a :: as, b :: bs, c :: cs, d :: ds => (a, b, c, d) :: pyZip4 as bs cs ds
  | _, _, _, _ => []

/-- Modelled from the spec: `get_output_path(save_name, args)` (in
`lcb_runner/utils/path_utils.py`, outside `src/`), the external path
resolver used only when an explicit save name is given; its derivation is
opaque to the core, so the model keeps the provided name. -/
def get_output_path (name : PyStr) (_sc : Scenario) : PyStr :=
  name

/-- The output-path derivation of `main`: without an explicit save name,
`args.custom_output_file[:-5] + f"_{args.scenario.value}_output.json"`;
Python slicing `[:-5]` keeps all but the last five characters (all of a
string shorter than five characters is removed). -/
def derive_output_path (saveName : Option PyStr) (customOutputFile : PyStr) (sc : Scenario) : PyStr :=
  match saveName with
  | none =>
    customOutputFile.take (customOutputFile.length - 5)
      ++ ("_").toList ++ Scenario.value sc ++ ("_output.json").toList
  | some name => get_output_path name sc

/-- Python `str.replace(pat, rep)` scanning engine: `skip` counts characters
of a just-matched pattern still to pass over; at `skip = 0` a match of
`pat` emits `rep` and skips the pattern, otherwise the character is kept. -/
def raGo (pat rep : PyStr) : Nat → PyStr → PyStr
  | _, [] => []
  | Nat.succ n, _ :: rest => raGo pat rep n rest
  | 0, c :: rest =>
    if pat ≠ [] ∧ pat.isPrefixOf (c :: rest) = true then
      rep ++ raGo pat rep (pat.length - 1) rest
    else c :: raGo pat rep 0 rest

/-- Python `str.replace(pat, rep)` for nonempty `pat`: replace every
non-overlapping occurrence, scanning left to right. -/
def pyReplace (pat rep l : PyStr) : PyStr :=
  raGo pat rep 0 l

/-- The metrics file path: `output_path.replace(".json", "_eval.json")`. -/
def eval_output_path (outputPath : PyStr) : PyStr :=
  pyReplace ((".json").toList) (("_eval.json").toList) outputPath

/-- The per-instance evaluation file path:
`output_path.replace(".json", "_eval_all.json")`. -/
def eval_all_output_path (outputPath : PyStr) : PyStr :=
  pyReplace ((".json").toList) (("_eval_all.json").toList) outputPath

theorem lexLe_nil (l : PyStr) : lexLe [] l = true := rfl

theorem lexLe_cons_nil (a : Char) (as : PyStr) : lexLe (a :: as) [] = false := rfl

theorem lexLe_cons_iff (a b : Char) (as bs : PyStr) :
    lexLe (a :: as) (b :: bs) = true ↔
      (a.toNat < b.toNat ∨ (a.toNat = b.toNat ∧ lexLe as bs = true)) := by
  simp only [lexLe]
  split_ifs with h1 h2
  · simp [h1]
  · have hne : ¬ a.toNat = b.toNat := by omega
    simp [h1, hne]
  · have heq : a.toNat = b.toNat := by omega
    simp [h1, heq]

theorem lexLt_irrefl (a : PyStr) : lexLt a a = false := by
  induction a with
  | nil => rfl
  | cons c cs ih => simp [lexLt, ih]

theorem lexLt_cons_iff (a b : Char) (as bs : PyStr) :
    lexLt (a :: as) (b :: bs) = true ↔
      (a.toNat < b.toNat ∨ (a.toNat = b.toNat ∧ lexLt as bs = true)) := by
  simp only [lexLt]
  split_ifs with h1 h2
  · simp [h1]
  · have hne : ¬ a.toNat = b.toNat := by omega
    simp [h1, hne]
  · have heq : a.toNat = b.toNat := by omega
    simp [h1, heq]

theorem char_toNat_inj {a b : Char} (h : a.toNat = b.toNat) : a = b :=
  Char.ext (UInt32.toNat.inj h)

theorem lexLe_total : ∀ a b : PyStr, lexLe a b = true ∨ lexLe b a = true
  | [], _ => Or.inl rfl
  | _ :: _, [] => Or.inr rfl
  | a :: as, b :: bs => by
    rcases Nat.lt_trichotomy a.toNat b.toNat with h | h | h
    · exact Or.inl ((lexLe_cons_iff a b as bs).mpr (Or.inl h))
    · rcases lexLe_total as bs with ih | ih
      · exact Or.inl ((lexLe_cons_iff a b as bs).mpr (Or.inr ⟨h, ih⟩))
      · exact Or.inr ((lexLe_cons_iff b a bs as).mpr (Or.inr ⟨h.symm, ih⟩))
    · exact Or.inr ((lexLe_cons_iff b a bs as).mpr (Or.inl h))

theorem lexLe_trans : ∀ a b c : PyStr,
    lexLe a b = true → lexLe b c = true → lexLe a c = true
  | [], _, _, _, _ => rfl
  | _ :: _, [], _, h, _ => by simp [lexLe_cons_nil] at h
  | _ :: _, _ :: _, [], _, h => by simp [lexLe_cons_nil] at h
  | a :: as, b :: bs, c :: cs, h1, h2 => by
    rcases (lexLe_cons_iff a b as bs).mp h1 with hab | ⟨hab, tab⟩ <;>
      rcases (lexLe_cons_iff b c bs cs).mp h2 with hbc | ⟨hbc, tbc⟩
    · exact (lexLe_cons_iff a c as cs).mpr (Or.inl (Nat.lt_trans hab hbc))
    · exact (lexLe_cons_iff a c as cs).mpr (Or.inl (hbc ▸ hab))
    · exact (lexLe_cons_iff a c as cs).mpr (Or.inl (hab ▸ hbc))
    · exact (lexLe_cons_iff a c as cs).mpr
        (Or.inr ⟨hab.trans hbc, lexLe_trans as bs cs tab tbc⟩)

theorem lexLe_antisymm : ∀ a b : PyStr,
    lexLe a b = true → lexLe b a = true → a = b
  | [], [], _, _ => rfl
  | [], _ :: _, _, h => by simp [lexLe_cons_nil] at h
  | _ :: _, [], h, _ => by simp [lexLe_cons_nil] at h
  | a :: as, b :: bs, h1, h2 => by
    rcases (lexLe_cons_iff a b as bs).mp h1 with hab | ⟨hab, tab⟩ <;>
      rcases (lexLe_cons_iff b a bs as).mp h2 with hba | ⟨hba, tba⟩
    · omega
    · omega
    · omega
    · rw [char_toNat_inj hab, lexLe_antisymm as bs tab tba]

theorem lexLt_asymm : ∀ a b : PyStr, lexLt a b = true → lexLt b a = false
  | [], [], h => by simp [lexLt] at h
  | [], _ :: _, _ => rfl
  | _ :: _, [], h => by simp [lexLt] at h
  | a :: as, b :: bs, h => by
    rcases (lexLt_cons_iff a b as bs).mp h with hab | ⟨hab, tab⟩
    · rw [Bool.eq_false_iff]
      intro hcon
      rcases (lexLt_cons_iff b a bs as).mp hcon with hba | ⟨hba, _⟩ <;> omega
    · rw [Bool.eq_false_iff]
      intro hcon
      rcases (lexLt_cons_iff b a bs as).mp hcon with hba | ⟨_, tba⟩
      · omega
      · rw [lexLt_asymm as bs tab] at tba
        exact Bool.false_ne_true tba

theorem lexLt_trans : ∀ a b c : PyStr,
    lexLt a b = true → lexLt b c = true → lexLt a c = true
  | [], _, _ :: _, _, _ => rfl
  | [], _ :: _, [], _, h => by simp [lexLt] at h
  | [], [], [], h, _ => by simp [lexLt] at h
  | _ :: _, [], _, h, _ => by simp [lexLt] at h
  | _ :: _, _ :: _, [], _, h => by simp [lexLt] at h
  | a :: as, b :: bs, c :: cs, h1, h2 => by
    rcases (lexLt_cons_iff a b as bs).mp h1 with hab | ⟨hab, tab⟩ <;>
      rcases (lexLt_cons_iff b c bs cs).mp h2 with hbc | ⟨hbc, tbc⟩
    · exact (lexLt_cons_iff a c as cs).mpr (Or.inl (Nat.lt_trans hab hbc))
    · exact (lexLt_cons_iff a c as cs).mpr (Or.inl (hbc ▸ hab))
    · exact (lexLt_cons_iff a c as cs).mpr (Or.inl (hab ▸ hbc))
    · exact (lexLt_cons_iff a c as cs).mpr
        (Or.inr ⟨hab.trans hbc, lexLt_trans as bs cs tab tbc⟩)

theorem lexLt_eq_of_not : ∀ a b : PyStr,
    lexLt a b = false → lexLt b a = false → a = b
  | [], [], _, _ => rfl
  | [], _ :: _, h, _ => by simp [lexLt] at h
  | _ :: _, [], _, h => by simp [lexLt] at h
  | a :: as, b :: bs, h1, h2 => by
    rw [Bool.eq_false_iff] at h1 h2
    have hab : ¬ a.toNat < b.toNat := fun hc =>
      h1 ((lexLt_cons_iff a b as bs).mpr (Or.inl hc))
    have hba : ¬ b.toNat < a.toNat := fun hc =>
      h2 ((lexLt_cons_iff b a bs as).mpr (Or.inl hc))
    have heq : a.toNat = b.toNat := by omega
    have t1 : lexLt as bs = false := by
      rw [Bool.eq_false_iff]
      intro hc
      exact h1 ((lexLt_cons_iff a b as bs).mpr (Or.inr ⟨heq, hc⟩))
    have t2 : lexLt bs as = false := by
      rw [Bool.eq_false_iff]
      intro hc
      exact h2 ((lexLt_cons_iff b a bs as).mpr (Or.inr ⟨heq.symm, hc⟩))
    rw [char_toNat_inj heq, lexLt_eq_of_not as bs t1 t2]

theorem s2_le_iff (a b c d : PyStr) :
    SKey.leB (SKey.s2 a b) (SKey.s2 c d) = true ↔
      (lexLt a c = true ∨ (a = c ∧ lexLe b d = true)) := by
  simp only [SKey.leB]
  rcases Bool.eq_false_or_eq_true (lexLt a c) with h1 | h1
  · simp [h1]
  · rcases Bool.eq_false_or_eq_true (lexLt c a) with h2 | h2
    · have hne : ¬ a = c := by
        rintro rfl
        rw [lexLt_irrefl] at h2
        exact Bool.false_ne_true h2
      simp [h1, h2, hne]
    · have heq : a = c := lexLt_eq_of_not a c h1 h2
      subst heq
      simp [h1, h2]

theorem skey_le_total : ∀ k k' : SKey, SKey.leB k k' = true ∨ SKey.leB k' k = true
  | SKey.s1 a, SKey.s1 b => by
    simpa only [SKey.leB] using lexLe_total a b
  | SKey.s1 _, SKey.s2 _ _ => Or.inl rfl
  | SKey.s1 _, SKey.i1 _ => Or.inl rfl
  | SKey.s2 _ _, SKey.s1 _ => Or.inr rfl
  | SKey.s2 a b, SKey.s2 c d => by
    rcases Bool.eq_false_or_eq_true (lexLt a c) with h1 | h1
    · exact Or.inl ((s2_le_iff a b c d).mpr (Or.inl h1))
    · rcases Bool.eq_false_or_eq_true (lexLt c a) with h2 | h2
      · exact Or.inr ((s2_le_iff c d a b).mpr (Or.inl h2))
      · have heq : a = c := lexLt_eq_of_not a c h1 h2
        rcases lexLe_total b d with h | h
        · exact Or.inl ((s2_le_iff a b c d).mpr (Or.inr ⟨heq, h⟩))
        · exact Or.inr ((s2_le_iff c d a b).mpr (Or.inr ⟨heq.symm, h⟩))
  | SKey.s2 _ _, SKey.i1 _ => Or.inl rfl
  | SKey.i1 _, SKey.s1 _ => Or.inr rfl
  | SKey.i1 _, SKey.s2 _ _ => Or.inr rfl
  | SKey.i1 m, SKey.i1 n => by
    simp only [SKey.leB, decide_eq_true_eq]
    exact Int.le_total m n

theorem skey_le_trans (k1 k2 k3 : SKey)
    (h1 : SKey.leB k1 k2 = true) (h2 : SKey.leB k2 k3 = true) :
    SKey.leB k1 k3 = true := by
  cases k1 <;> cases k2 <;> cases k3
  all_goals try rfl
  all_goals try exact absurd h1 Bool.false_ne_true
  all_goals try exact absurd h2 Bool.false_ne_true
  · exact lexLe_trans _ _ _ h1 h2
  · rename_i a b c d e f
    rcases (s2_le_iff a b c d).mp h1 with hlt1 | ⟨heq1, hle1⟩ <;>
      rcases (s2_le_iff c d e f).mp h2 with hlt2 | ⟨heq2, hle2⟩
    · exact (s2_le_iff a b e f).mpr (Or.inl (lexLt_trans _ _ _ hlt1 hlt2))
    · exact (s2_le_iff a b e f).mpr (Or.inl (heq2 ▸ hlt1))
    · exact (s2_le_iff a b e f).mpr (Or.inl (heq1 ▸ hlt2))
    · exact (s2_le_iff a b e f).mpr
        (Or.inr ⟨heq1.trans heq2, lexLe_trans _ _ _ hle1 hle2⟩)
  · have g1 := of_decide_eq_true h1
    have g2 := of_decide_eq_true h2
    exact decide_eq_true (Int.le_trans g1 g2)

theorem skey_le_antisymm (k1 k2 : SKey)
    (h1 : SKey.leB k1 k2 = true) (h2 : SKey.leB k2 k1 = true) :
    k1 = k2 := by
  cases k1 <;> cases k2
  all_goals try exact absurd h1 Bool.false_ne_true
  all_goals try exact absurd h2 Bool.false_ne_true
  · rw [lexLe_antisymm _ _ h1 h2]
  · rename_i a b c d
    rcases (s2_le_iff a b c d).mp h1 with hlt1 | ⟨rfl, hle1⟩
    · rcases (s2_le_iff c d a b).mp h2 with hlt2 | ⟨heq2, _⟩
      · rw [lexLt_asymm _ _ hlt1] at hlt2
        exact absurd hlt2 Bool.false_ne_true
      · rw [heq2, lexLt_irrefl] at hlt1
        exact absurd hlt1 Bool.false_ne_true
    · rcases (s2_le_iff a d a b).mp h2 with hlt2 | ⟨_, hle2⟩
      · rw [lexLt_irrefl] at hlt2
        exact absurd hlt2 Bool.false_ne_true
      · rw [lexLe_antisymm _ _ hle1 hle2]
  · have g1 := of_decide_eq_true h1
    have g2 := of_decide_eq_true h2
    rw [Int.le_antisymm g1 g2]

/-- The sorting relation of `sortPairs`: compare keyed records by key. -/
def pairLe (p q : SKey × Dict) : Prop := SKey.leB p.1 q.1 = true

instance pairLe_dec : DecidableRel pairLe := fun p q => by
  unfold pairLe
  infer_instance

theorem sortPairs_eq (l : List (SKey × Dict)) :
    sortPairs l = List.insertionSort pairLe l := rfl

theorem sortPairs_perm (l : List (SKey × Dict)) : (sortPairs l).Perm l :=
  List.perm_insertionSort _ l

theorem sortPairs_sorted (l : List (SKey × Dict)) : (sortPairs l).Pairwise pairLe := by
  haveI : IsTotal (SKey × Dict) pairLe := ⟨fun a b => skey_le_total a.1 b.1⟩
  haveI : IsTrans (SKey × Dict) pairLe := ⟨fun a b c => skey_le_trans a.1 b.1 c.1⟩
  rw [sortPairs_eq]
  exact List.sorted_insertionSort pairLe l

theorem sorted_perm_eq_of_nodup_keys :
    ∀ l₁ l₂ : List (SKey × Dict), l₁.Perm l₂ →
      l₁.Pairwise pairLe → l₂.Pairwise pairLe →
      (l₁.map Prod.fst).Nodup → l₁ = l₂
  | [], l₂, hp, _, _, _ => (hp.symm.eq_nil).symm
  | a :: t₁, [], hp, _, _, _ => by
    exact absurd hp.eq_nil (by simp)
  | a :: t₁, b :: t₂, hp, hp₁, hp₂, hnd => by
    have hab : a = b := by
      have ha2 : a ∈ b :: t₂ := hp.mem_iff.mp (List.mem_cons_self a t₁)
      have hb1 : b ∈ a :: t₁ := hp.mem_iff.mpr (List.mem_cons_self b t₂)
      rcases List.mem_cons.mp ha2 with h | ha2t
      · exact h
      · rcases List.mem_cons.mp hb1 with h | hb1t
        · exact h.symm
        · have r1 : pairLe b a := (List.pairwise_cons.mp hp₂).1 a ha2t
          have r2 : pairLe a b := (List.pairwise_cons.mp hp₁).1 b hb1t
          have hkey : a.1 = b.1 := skey_le_antisymm a.1 b.1 r2 r1
          have hmem : b.1 ∈ t₁.map Prod.fst := List.mem_map_of_mem Prod.fst hb1t
          rw [← hkey] at hmem
          rw [List.map_cons] at hnd
          exact absurd hmem (List.nodup_cons.mp hnd).1
    subst hab
    have ht : t₁.Perm t₂ := hp.cons_inv
    rw [List.map_cons] at hnd
    have := sorted_perm_eq_of_nodup_keys t₁ t₂ ht
      (List.pairwise_cons.mp hp₁).2 (List.pairwise_cons.mp hp₂).2
      (List.nodup_cons.mp hnd).2
    rw [this]

theorem exMapM_ok_of_pointwise (f : α → Except PyErr β) (g : α → β) :
    ∀ l : List α, (∀ a ∈ l, f a = Except.ok (g a)) →
      exMapM f l = Except.ok (l.map g)
  | [], _ => rfl
  | a :: as, h => by
    have ha := h a (List.mem_cons_self a as)
    have ih := exMapM_ok_of_pointwise f g as (fun x hx => h x (List.mem_cons_of_mem a hx))
    simp [exMapM, ha, ih]

theorem exMapM_error_of_mem (f : α → Except PyErr β) :
    ∀ l : List α, (∃ a ∈ l, exOkB (f a) = false) →
      ∃ e, exMapM f l = Except.error e
  | [], h => by simp at h
  | a :: as, h => by
    rcases h with ⟨x, hx, hbad⟩
    rcases List.mem_cons.mp hx with rfl | hxt
    · cases hfa : f x with
      | ok b => rw [hfa] at hbad; simp [exOkB] at hbad
      | error e => exact ⟨e, by simp [exMapM, hfa]⟩
    · cases hfa : f a with
      | error e => exact ⟨e, by simp [exMapM, hfa]⟩
      | ok b =>
        rcases exMapM_error_of_mem f as ⟨x, hxt, hbad⟩ with ⟨e, he⟩
        exact ⟨e, by simp [exMapM, hfa, he]⟩

theorem is_valid_python_eq (s : PyStr) :
    is_valid_python s = Except.ok (is_valid_pythonB s) := by
  unfold is_valid_python ast_parse is_valid_pythonB
  cases h : pySyntaxOk s <;> simp [h]

theorem filterValid_eq : ∀ l : List PyStr,
    filterValid l = Except.ok (l.filter is_valid_pythonB)
  | [] => rfl
  | s :: rest => by
    have ih := filterValid_eq rest
    cases h : is_valid_pythonB s <;>
      simp [filterValid, is_valid_python_eq, ih, List.filter_cons, h]

theorem scKeyE_ok (sc : Scenario) (d : Dict) (h : exOkB (scKeyE sc d) = true) :
    scKeyE sc d = Except.ok (keyPure sc d) := by
  cases hk : scKeyE sc d with
  | ok k => simp [keyPure, hk]
  | error e => rw [hk] at h; simp [exOkB] at h

theorem scFieldE_ok (sc : Scenario) (d : Dict) (h : exOkB (scFieldE sc d) = true) :
    scFieldE sc d = Except.ok (fieldPure sc d) := by
  cases hk : scFieldE sc d with
  | ok f => simp [fieldPure, hk]
  | error e => rw [hk] at h; simp [exOkB] at h

theorem alignDicts_ok (sc : Scenario) (ds : List Dict)
    (hkeys : ∀ d ∈ ds, exOkB (scKeyE sc d) = true)
    (hflds : ∀ d ∈ ds, exOkB (scFieldE sc d) = true) :
    alignDicts sc ds =
      Except.ok (((sortPairs (ds.map (fun d => (keyPure sc d, d)))).map Prod.snd).map
        (fun d => (fieldPure sc d).map clean_code_output)) := by
  have h1 : exMapM (fun d =>
      match scKeyE sc d with
      | Except.error e => Except.error e
      | Except.ok k => Except.ok (k, d)) ds =
      Except.ok (ds.map (fun d => (keyPure sc d, d))) := by
    apply exMapM_ok_of_pointwise
    intro d hd
    rw [scKeyE_ok sc d (hkeys d hd)]
  have hmem : ∀ d ∈ (sortPairs (ds.map (fun d => (keyPure sc d, d)))).map Prod.snd, d ∈ ds := by
    intro d hd
    have hperm := (sortPairs_perm (ds.map (fun d => (keyPure sc d, d)))).map Prod.snd
    have := hperm.mem_iff.mp hd
    simpa [List.map_map, Function.comp] using this
  have h2 : exMapM (fun d =>
      match scFieldE sc d with
      | Except.error e => Except.error e
      | Except.ok f => Except.ok (f.map clean_code_output))
      ((sortPairs (ds.map (fun d => (keyPure sc d, d)))).map Prod.snd) =
      Except.ok (((sortPairs (ds.map (fun d => (keyPure sc d, d)))).map Prod.snd).map
        (fun d => (fieldPure sc d).map clean_code_output)) := by
    apply exMapM_ok_of_pointwise
    intro d hd
    rw [scFieldE_ok sc d (hflds d (hmem d hd))]
  simp only [alignDicts, h1, h2]

theorem sortPairs_of_perm (ds ds' : List Dict) (sc : Scenario)
    (hperm : ds'.Perm ds)
    (hnd : (ds.map (keyPure sc)).Nodup) :
    sortPairs (ds'.map (fun d => (keyPure sc d, d))) =
      sortPairs (ds.map (fun d => (keyPure sc d, d))) := by
  apply sorted_perm_eq_of_nodup_keys
  · exact ((sortPairs_perm _).trans (hperm.map _)).trans (sortPairs_perm _).symm
  · exact sortPairs_sorted _
  · exact sortPairs_sorted _
  · have hp : ((sortPairs (ds'.map (fun d => (keyPure sc d, d)))).map Prod.fst).Perm
        (ds.map (keyPure sc)) := by
      have h1 := (sortPairs_perm (ds'.map (fun d => (keyPure sc d, d)))).map Prod.fst
      have h2 : ((ds'.map (fun d => (keyPure sc d, d))).map Prod.fst).Perm
          (ds.map (keyPure sc)) := by
        have := hperm.map (keyPure sc)
        simpa [List.map_map, Function.comp] using this
      exact h1.trans h2
    exact hp.nodup_iff.mpr hnd

theorem map_extract_lst (ls : List (List PyStr)) :
    (ls.map PyObj.lst).map (fun o =>
      match o with
      | PyObj.lst ys => ys
      | PyObj.dict _ => []) = ls := by
  induction ls with
  | nil => rfl
  | cons a as ih => exact congrArg (List.cons a) ih

theorem filterMap_extract_dict (ds : List Dict) :
    (ds.map PyObj.dict).filterMap (fun o =>
      match o with
      | PyObj.dict d => some d
      | PyObj.lst _ => none) = ds := by
  induction ds with
  | nil => rfl
  | cons a as ih =>
    simp only [List.map_cons, List.filterMap_cons]
    exact congrArg (List.cons a) ih

theorem processOutputs_lists (sc : Scenario) (lists : List (List PyStr))
    (h : lists ≠ []) :
    processOutputs sc (lists.map PyObj.lst) =
      Except.ok (lists.map (fun l => l.filter is_valid_pythonB)) := by
  cases lists with
  | nil => exact absurd rfl h
  | cons x xs =>
    have hall : ((x :: xs).map PyObj.lst).all isLstB = true := by
      simp [List.all_map, isLstB, Function.comp]
    have step1 : processOutputs sc ((x :: xs).map PyObj.lst) =
        (match (if ((x :: xs).map PyObj.lst).all isLstB then
            Except.ok (((x :: xs).map PyObj.lst).map (fun o =>
              match o with
              | PyObj.lst ys => ys
              | PyObj.dict _ => []))
          else Except.error PyErr.assertionError) with
        | Except.error e => Except.error e
        | Except.ok aligned => exMapM filterValid aligned) := rfl
    rw [step1, hall, if_pos rfl, map_extract_lst]
    exact exMapM_ok_of_pointwise filterValid (fun l => l.filter is_valid_pythonB)
      (x :: xs) (fun l _ => filterValid_eq l)

theorem processOutputs_dicts (sc : Scenario) (ds : List Dict)
    (h : ds ≠ []) :
    processOutputs sc (ds.map PyObj.dict) =
      (match alignDicts sc ds with
      | Except.error e => Except.error e
      | Except.ok aligned =>
        Except.ok (aligned.map (fun l => l.filter is_valid_pythonB))) := by
  cases ds with
  | nil => exact absurd rfl h
  | cons x xs =>
    have hall : ((x :: xs).map PyObj.dict).all isDictB = true := by
      simp [List.all_map, isDictB, Function.comp]
    have step1 : processOutputs sc ((x :: xs).map PyObj.dict) =
        (match (if ((x :: xs).map PyObj.dict).all isDictB then
            alignDicts sc (((x :: xs).map PyObj.dict).filterMap (fun o =>
              match o with
              | PyObj.dict d => some d
              | PyObj.lst _ => none))
          else Except.error PyErr.assertionError) with
        | Except.error e => Except.error e
        | Except.ok aligned => exMapM filterValid aligned) := rfl
    rw [step1, hall, if_pos rfl, filterMap_extract_dict]
    cases halign : alignDicts sc (x :: xs) with
    | error e => rfl
    | ok aligned =>
      exact exMapM_ok_of_pointwise filterValid (fun l => l.filter is_valid_pythonB)
        aligned (fun l _ => filterValid_eq l)

/-- Whether a mapping-shaped record is missing a field or key that the
scenario requires (the spec's ShapeViolation condition). -/
def requiredMissing (sc : Scenario) (d : Dict) : Bool :=
  match sc with
  | Scenario.codegeneration | Scenario.selfrepair =>
    d.question_id.isNone || d.code_list.isNone
  | Scenario.testoutputprediction =>
    d.question_id.isNone || d.test_id.isNone || d.pred_list.isNone
  | Scenario.codeexecution =>
    d.id.isNone || d.pred_list.isNone

/-- The spec's ShapeViolation predicate over a loaded candidate collection:
empty, mixed list/mapping shapes, or a mapping lacking its
scenario-required field or key. -/
def shapeViolation (sc : Scenario) (objs : List PyObj) : Prop :=
  objs = [] ∨
  ((∃ o ∈ objs, isLstB o = true) ∧ (∃ o ∈ objs, isDictB o = true)) ∨
  ((∀ o ∈ objs, isDictB o = true) ∧ (∃ o ∈ objs,
    (match o with
    | PyObj.dict d => requiredMissing sc d
    | PyObj.lst _ => false) = true))

instance shapeViolation_dec (sc : Scenario) (objs : List PyObj) :
    Decidable (shapeViolation sc objs) := by
  unfold shapeViolation
  infer_instance

theorem processOutputs_head_lst (sc : Scenario) (x : List PyStr) (rest : List PyObj) :
    processOutputs sc (PyObj.lst x :: rest) =
      (match (if (PyObj.lst x :: rest).all isLstB then
          Except.ok ((PyObj.lst x :: rest).map (fun o =>
            match o with
            | PyObj.lst ys => ys
            | PyObj.dict _ => []))
        else Except.error PyErr.assertionError) with
      | Except.error e => Except.error e
      | Except.ok aligned => exMapM filterValid aligned) := rfl

theorem processOutputs_head_dict (sc : Scenario) (d : Dict) (rest : List PyObj) :
    processOutputs sc (PyObj.dict d :: rest) =
      (match (if (PyObj.dict d :: rest).all isDictB then
          alignDicts sc ((PyObj.dict d :: rest).filterMap (fun o =>
            match o with
            | PyObj.dict d => some d
            | PyObj.lst _ => none))
        else Except.error PyErr.assertionError) with
      | Except.error e => Except.error e
      | Except.ok aligned => exMapM filterValid aligned) := rfl

theorem field_fail_of_missing (sc : Scenario) (d : Dict)
    (hmiss : requiredMissing sc d = true)
    (hk : exOkB (scKeyE sc d) = true) :
    exOkB (scFieldE sc d) = false := by
  cases sc
  · cases hq : d.question_id <;> cases hc : d.code_list <;>
      simp_all [requiredMissing, scKeyE, scFieldE, exOkB]
  · cases hq : d.question_id <;> cases hc : d.code_list <;>
      simp_all [requiredMissing, scKeyE, scFieldE, exOkB]
  · cases hq : d.question_id <;> cases ht : d.test_id <;> cases hp : d.pred_list <;>
      simp_all [requiredMissing, scKeyE, scFieldE, exOkB]
  · cases hi : d.id <;> cases hp : d.pred_list <;>
      simp_all [requiredMissing, scKeyE, scFieldE, exOkB]

theorem alignDicts_error_of_missing (sc : Scenario) (ds : List Dict) (d : Dict)
    (hd : d ∈ ds) (hmiss : requiredMissing sc d = true) :
    ∃ e, alignDicts sc ds = Except.error e := by
  by_cases hk : ∃ d' ∈ ds, exOkB (scKeyE sc d') = false
  · rcases hk with ⟨d', hd', hbad⟩
    have hbad' : exOkB ((fun d =>
        match scKeyE sc d with
        | Except.error e => Except.error e
        | Except.ok k => Except.ok ((k, d) : SKey × Dict)) d') = false := by
      cases hke : scKeyE sc d' <;> simp_all [exOkB]
    rcases exMapM_error_of_mem (fun d =>
        match scKeyE sc d with
        | Except.error e => Except.error e
        | Except.ok k => Except.ok ((k, d) : SKey × Dict)) ds ⟨d', hd', hbad'⟩ with ⟨e, he⟩
    exact ⟨e, by simp only [alignDicts, he]⟩
  · push_neg at hk
    have hkeys : ∀ d' ∈ ds, exOkB (scKeyE sc d') = true := by
      intro d' hd'
      rcases Bool.eq_false_or_eq_true (exOkB (scKeyE sc d')) with h | h
      · exact h
      · exact absurd h (hk d' hd')
    have h1 : exMapM (fun d =>
        match scKeyE sc d with
        | Except.error e => Except.error e
        | Except.ok k => Except.ok ((k, d) : SKey × Dict)) ds =
        Except.ok (ds.map (fun d => (keyPure sc d, d))) := by
      apply exMapM_ok_of_pointwise
      intro d' hd'
      rw [scKeyE_ok sc d' (hkeys d' hd')]
    have hfbad : exOkB (scFieldE sc d) = false :=
      field_fail_of_missing sc d hmiss (hkeys d hd)
    have hdmem : d ∈ (sortPairs (ds.map (fun d => (keyPure sc d, d)))).map Prod.snd := by
      have hperm := (sortPairs_perm (ds.map (fun d => (keyPure sc d, d)))).map Prod.snd
      apply hperm.mem_iff.mpr
      simpa [List.map_map, Function.comp] using hd
    have hbad2 : exOkB ((fun d =>
        match scFieldE sc d with
        | Except.error e => Except.error e
        | Except.ok f => Except.ok (f.map clean_code_output)) d) = false := by
      cases hfe : scFieldE sc d <;> simp_all [exOkB]
    rcases exMapM_error_of_mem (fun d =>
        match scFieldE sc d with
        | Except.error e => Except.error e
        | Except.ok f => Except.ok (f.map clean_code_output)) _ ⟨d, hdmem, hbad2⟩ with ⟨e, he⟩
    exact ⟨e, by simp only [alignDicts, h1, he]⟩

/-- C2: for every loaded candidate collection, a shape violation is fatal
and unrecovered: the run fails with an uncaught exception if the collection
is empty, if it mixes list-shaped and mapping-shaped records, or if a
mapping-shaped record is missing the field or key required by the scenario
(`code_list`/`pred_list`, `question_id`, `test_id`, or `id`). -/
theorem claim_C2 (sc : Scenario) (objs : List PyObj)
    (h : shapeViolation sc objs) :
    ∃ e, processOutputs sc objs = Except.error e := by
  rcases h with rfl | ⟨⟨o1, ho1, hl⟩, ⟨o2, ho2, hd⟩⟩ | ⟨hall, ⟨o, ho, hmiss⟩⟩
  · exact ⟨PyErr.indexError, rfl⟩
  · cases objs with
    | nil => simp at ho1
    | cons first rest =>
      cases first with
      | lst x =>
        have hallf : (PyObj.lst x :: rest).all isLstB = false := by
          rw [Bool.eq_false_iff]
          intro hallt
          have h2 := List.all_eq_true.mp hallt o2 ho2
          cases o2 <;> simp_all [isLstB, isDictB]
        refine ⟨PyErr.assertionError, ?_⟩
        rw [processOutputs_head_lst, hallf, if_neg Bool.false_ne_true]
      | dict d0 =>
        have hallf : (PyObj.dict d0 :: rest).all isDictB = false := by
          rw [Bool.eq_false_iff]
          intro hallt
          have h2 := List.all_eq_true.mp hallt o1 ho1
          cases o1 <;> simp_all [isLstB, isDictB]
        refine ⟨PyErr.assertionError, ?_⟩
        rw [processOutputs_head_dict, hallf, if_neg Bool.false_ne_true]
  · cases objs with
    | nil => simp at ho
    | cons first rest =>
      cases first with
      | lst x =>
        have hx := hall (PyObj.lst x) (List.mem_cons_self _ _)
        simp [isDictB] at hx
      | dict d0 =>
        have hallt : (PyObj.dict d0 :: rest).all isDictB = true :=
          List.all_eq_true.mpr hall
        cases o with
        | lst _ => simp at hmiss
        | dict dm =>
          have hdm : dm ∈ (PyObj.dict d0 :: rest).filterMap (fun o =>
              match o with
              | PyObj.dict d => some d
              | PyObj.lst _ => none) :=
            List.mem_filterMap.mpr ⟨PyObj.dict dm, ho, rfl⟩
          rcases alignDicts_error_of_missing sc _ dm hdm hmiss with ⟨e, he⟩
          refine ⟨e, ?_⟩
          rw [processOutputs_head_dict, hallt, if_pos rfl, he]

/-- Concrete instantiation of `claim_C2`: a collection mixing a list-shaped
and a mapping-shaped record fails fatally. -/
theorem claim_C2_witness :
    ∃ e, processOutputs Scenario.codegeneration
      [PyObj.lst [("x=1").toList], PyObj.dict {}] = Except.error e :=
  claim_C2 Scenario.codegeneration
    [PyObj.lst [("x=1").toList], PyObj.dict {}] (by decide)

theorem buildSaveResults_length (b : List Inst) (o : List (List PyStr)) :
    (buildSaveResults b o).length = min b.length o.length := by
  simp [buildSaveResults, List.length_zip]

theorem pyZip3_length : ∀ (as : List α) (bs : List β) (cs : List γ),
    (pyZip3 as bs cs).length = min as.length (min bs.length cs.length)
  | [], bs, cs => by
    have h : pyZip3 ([] : List α) bs cs = [] := rfl
    rw [h]
    simp only [List.length_nil]
    omega
  | a :: as, [], cs => by
    have h : pyZip3 (a :: as) ([] : List β) cs = [] := rfl
    rw [h]
    simp only [List.length_nil, List.length_cons]
    omega
  | a :: as, b :: bs, [] => by
    have h : pyZip3 (a :: as) (b :: bs) ([] : List γ) = [] := rfl
    rw [h]
    simp only [List.length_nil, List.length_cons]
    omega
  | a :: as, b :: bs, c :: cs => by
    have h : pyZip3 (a :: as) (b :: bs) (c :: cs) = (a, b, c) :: pyZip3 as bs cs := rfl
    rw [h]
    simp only [List.length_cons, pyZip3_length as bs cs]
    omega

/-- C1: a candidate collection of length two against a benchmark of length
one is not rejected: the pipeline completes normally and the positional
`zip` silently truncates, producing one save result and dropping the extra
candidate; in general every zip in the evaluator truncates to the shorter
collection instead of raising an alignment error. -/
theorem claim_C1 :
    processOutputs Scenario.codegeneration
        [PyObj.lst [("x=1").toList], PyObj.lst [("y=2").toList]] =
      Except.ok [[("x=1").toList], [("y=2").toList]] ∧
    buildSaveResults [{ qid := ("A").toList }]
        [[("x=1").toList], [("y=2").toList]] =
      [{ inst := { qid := ("A").toList },
         raw := [("x=1").toList], extracted := [("x=1").toList] }] ∧
    (buildSaveResults [{ qid := ("A").toList }]
        [[("x=1").toList], [("y=2").toList]]).length = 1 ∧
    (∀ (b : List Inst) (o : List (List PyStr)),
      (buildSaveResults b o).length = min b.length o.length) ∧
    (∀ (as : List Inst) (bs cs : List (List PyStr)),
      (pyZip3 as bs cs).length = min as.length (min bs.length cs.length)) := by
  exact ⟨rfl, rfl, rfl, buildSaveResults_length, pyZip3_length⟩

/-- C3 counterexample: for a list-shaped collection the pipeline does not
apply `clean_code_output` before filtering — a fenced candidate that would
survive as `x=1` under clean-then-filter is instead dropped whole. -/
theorem claim_C3_counterexample :
    processOutputs Scenario.codegeneration
        [PyObj.lst [("```python\nx=1\n```").toList]] =
      Except.ok [([] : List PyStr)] ∧
    ([("```python\nx=1\n```").toList].map clean_code_output).filter is_valid_pythonB =
      [("x=1").toList] ∧
    ([] : List PyStr) ≠ [("x=1").toList] := by
  exact ⟨rfl, rfl, by decide⟩

/-- C3 (amended): for mapping-shaped input each aligned entry is passed
through `clean_code_output` and the list is then filtered to entries on
which `is_valid_python` holds; for list-shaped input the entries are
filtered without being cleaned. The filter preserves relative order, the
filtered length equals the original length minus the count of invalid
entries, and an empty result raises no error. -/
theorem claim_C3_amended :
    (∀ (sc : Scenario) (lists : List (List PyStr)), lists ≠ [] →
      processOutputs sc (lists.map PyObj.lst) =
        Except.ok (lists.map (fun l => l.filter is_valid_pythonB))) ∧
    (∀ (sc : Scenario) (d : Dict),
      exOkB (scKeyE sc d) = true → exOkB (scFieldE sc d) = true →
      processOutputs sc [PyObj.dict d] =
        Except.ok [((fieldPure sc d).map clean_code_output).filter is_valid_pythonB]) ∧
    (∀ l : List PyStr, (l.filter is_valid_pythonB).Sublist l) ∧
    (∀ l : List PyStr, (l.filter is_valid_pythonB).length =
      l.length - l.countP (fun s => !(is_valid_pythonB s))) := by
  refine ⟨processOutputs_lists, ?_, fun l => List.filter_sublist l, ?_⟩
  · intro sc d hk hf
    have h1 := processOutputs_dicts sc [d] (by simp)
    have h2 := alignDicts_ok sc [d]
      (by intro x hx; rw [List.mem_singleton] at hx; subst hx; exact hk)
      (by intro x hx; rw [List.mem_singleton] at hx; subst hx; exact hf)
    simp only [List.map_cons, List.map_nil] at h1
    rw [h1, h2]
    rfl
  · intro l
    have h1 := List.countP_eq_length_filter is_valid_pythonB l
    have h2 := List.length_eq_countP_add_countP is_valid_pythonB l
    have h3 : (fun a => decide ¬(is_valid_pythonB a = true)) =
        (fun s => !(is_valid_pythonB s)) := by
      funext a
      cases h : is_valid_pythonB a <;> simp [h]
    rw [h3] at h2
    omega

/-- Concrete instantiation of `claim_C3_amended` at a one-element
list-shaped collection and a one-record mapping-shaped collection. -/
theorem claim_C3_amended_witness :
    processOutputs Scenario.codegeneration [PyObj.lst [("x=1").toList]] =
      Except.ok [[("x=1").toList]] ∧
    processOutputs Scenario.codegeneration
        [PyObj.dict { question_id := some (("Q").toList),
                      code_list := some [("```python\ny=2\n```").toList] }] =
      Except.ok [[("y=2").toList]] := by
  constructor
  · exact claim_C3_amended.1 Scenario.codegeneration [[("x=1").toList]] (by simp)
  · exact claim_C3_amended.2.1 Scenario.codegeneration
      { question_id := some (("Q").toList),
        code_list := some [("```python\ny=2\n```").toList] } rfl rfl

theorem lexLt_not_le : ∀ a b : PyStr, lexLt a b = true → lexLe b a = false
  | [], [], h => by simp [lexLt] at h
  | [], _ :: _, _ => rfl
  | _ :: _, [], h => by simp [lexLt] at h
  | a :: as, b :: bs, h => by
    rw [Bool.eq_false_iff]
    intro hcon
    rcases (lexLt_cons_iff a b as bs).mp h with hab | ⟨hab, tab⟩ <;>
      rcases (lexLe_cons_iff b a bs as).mp hcon with hba | ⟨hba, tba⟩
    · omega
    · omega
    · omega
    · rw [lexLt_not_le as bs tab] at tba
      exact Bool.false_ne_true tba

theorem alignDicts_two (sc : Scenario) (dA dB : Dict) (kA kB : SKey)
    (fA fB : List PyStr)
    (hkA : scKeyE sc dA = Except.ok kA) (hkB : scKeyE sc dB = Except.ok kB)
    (hfA : scFieldE sc dA = Except.ok fA) (hfB : scFieldE sc dB = Except.ok fB)
    (hlt : SKey.leB kA kB = false) :
    alignDicts sc [dA, dB] =
      Except.ok [fB.map clean_code_output, fA.map clean_code_output] := by
  simp only [alignDicts, exMapM, hkA, hkB, sortPairs, List.insertionSort,
    List.orderedInsert, hlt, Bool.false_eq_true, if_false, List.map_cons,
    List.map_nil, hfA, hfB]

/-- C7: alignment of mapping-shaped collections sorts ascending by the
scenario key and extracts the scenario field: code generation and self
repair sort by the stringified `question_id` and extract `code_list`;
test-output prediction sorts by the pair of stringified `question_id` and
`test_id` — records with equal `question_id` are ordered by `test_id` —
and extracts `pred_list`; code execution sorts by the integer parsed from
the second underscore-delimited segment of `id` and extracts `pred_list`.
Each conjunct exhibits the order on a two-record collection given in
reverse key order. -/
theorem claim_C7 :
    (∀ (d₁ d₂ : Dict) (q t₁ t₂ : PyStr) (p₁ p₂ : List PyStr),
      d₁.question_id = some q → d₂.question_id = some q →
      d₁.test_id = some t₁ → d₂.test_id = some t₂ →
      d₁.pred_list = some p₁ → d₂.pred_list = some p₂ →
      lexLt t₁ t₂ = true →
      alignDicts Scenario.testoutputprediction [d₂, d₁] =
        Except.ok [p₁.map clean_code_output, p₂.map clean_code_output]) ∧
    (∀ (sc : Scenario) (d₁ d₂ : Dict) (q₁ q₂ : PyStr) (c₁ c₂ : List PyStr),
      (sc = Scenario.codegeneration ∨ sc = Scenario.selfrepair) →
      d₁.question_id = some q₁ → d₂.question_id = some q₂ →
      d₁.code_list = some c₁ → d₂.code_list = some c₂ →
      lexLt q₁ q₂ = true →
      alignDicts sc [d₂, d₁] =
        Except.ok [c₁.map clean_code_output, c₂.map clean_code_output]) ∧
    (∀ (d₁ d₂ : Dict) (i₁ i₂ s₁ s₂ : PyStr) (n₁ n₂ : Int) (p₁ p₂ : List PyStr),
      d₁.id = some i₁ → d₂.id = some i₂ →
      (pySplit '_' i₁).get? 1 = some s₁ → (pySplit '_' i₂).get? 1 = some s₂ →
      pyInt s₁ = some n₁ → pyInt s₂ = some n₂ →
      d₁.pred_list = some p₁ → d₂.pred_list = some p₂ →
      n₁ < n₂ →
      alignDicts Scenario.codeexecution [d₂, d₁] =
        Except.ok [p₁.map clean_code_output, p₂.map clean_code_output]) := by
  refine ⟨?_, ?_, ?_⟩
  · intro d₁ d₂ q t₁ t₂ p₁ p₂ hq1 hq2 ht1 ht2 hp1 hp2 hlt
    have hswap : SKey.leB (SKey.s2 q t₂) (SKey.s2 q t₁) = false := by
      rw [Bool.eq_false_iff]
      intro hcon
      rcases (s2_le_iff q t₂ q t₁).mp hcon with hl | ⟨_, hle⟩
      · rw [lexLt_irrefl] at hl
        exact Bool.false_ne_true hl
      · rw [lexLt_not_le t₁ t₂ hlt] at hle
        exact Bool.false_ne_true hle
    exact alignDicts_two Scenario.testoutputprediction d₂ d₁
      (SKey.s2 q t₂) (SKey.s2 q t₁) p₂ p₁
      (by simp [scKeyE, hq2, ht2]) (by simp [scKeyE, hq1, ht1])
      (by simp [scFieldE, hp2]) (by simp [scFieldE, hp1]) hswap
  · intro sc d₁ d₂ q₁ q₂ c₁ c₂ hsc hq1 hq2 hc1 hc2 hlt
    have hswap : SKey.leB (SKey.s1 q₂) (SKey.s1 q₁) = false := by
      simpa only [SKey.leB] using lexLt_not_le q₁ q₂ hlt
    rcases hsc with rfl | rfl
    · exact alignDicts_two Scenario.codegeneration d₂ d₁
        (SKey.s1 q₂) (SKey.s1 q₁) c₂ c₁
        (by simp [scKeyE, hq2]) (by simp [scKeyE, hq1])
        (by simp [scFieldE, hc2]) (by simp [scFieldE, hc1]) hswap
    · exact alignDicts_two Scenario.selfrepair d₂ d₁
        (SKey.s1 q₂) (SKey.s1 q₁) c₂ c₁
        (by simp [scKeyE, hq2]) (by simp [scKeyE, hq1])
        (by simp [scFieldE, hc2]) (by simp [scFieldE, hc1]) hswap
  · intro d₁ d₂ i₁ i₂ s₁ s₂ n₁ n₂ p₁ p₂ hi1 hi2 hs1 hs2 hn1 hn2 hp1 hp2 hlt
    have hswap : SKey.leB (SKey.i1 n₂) (SKey.i1 n₁) = false := by
      simp only [SKey.leB]
      exact decide_eq_false (by omega)
    have hs1' := hs1
    have hs2' := hs2
    rw [List.get?_eq_getElem?] at hs1' hs2'
    exact alignDicts_two Scenario.codeexecution d₂ d₁
      (SKey.i1 n₂) (SKey.i1 n₁) p₂ p₁
      (by simp [scKeyE, hi2, hs2', hn2]) (by simp [scKeyE, hi1, hs1', hn1])
      (by simp [scFieldE, hp2]) (by simp [scFieldE, hp1]) hswap

/-- Concrete instantiation of `claim_C7` for each scenario family; the code
execution records with ids `s_2_a` and `s_10_b` order numerically (2 before
10), not lexicographically. -/
theorem claim_C7_witness :
    alignDicts Scenario.testoutputprediction
      [{ question_id := some (("Q").toList), test_id := some (("2").toList),
         pred_list := some [("b").toList] },
       { question_id := some (("Q").toList), test_id := some (("1").toList),
         pred_list := some [("a").toList] }] =
      Except.ok [[("a").toList], [("b").toList]] ∧
    alignDicts Scenario.codegeneration
      [{ question_id := some (("B").toList), code_list := some [("y=2").toList] },
       { question_id := some (("A").toList), code_list := some [("x=1").toList] }] =
      Except.ok [[("x=1").toList], [("y=2").toList]] ∧
    alignDicts Scenario.codeexecution
      [{ id := some (("s_10_b").toList), pred_list := some [("v=10").toList] },
       { id := some (("s_2_a").toList), pred_list := some [("v=2").toList] }] =
      Except.ok [[("v=2").toList], [("v=10").toList]] := by
  refine ⟨?_, ?_, ?_⟩
  · exact claim_C7.1 _ _ (("Q").toList) (("1").toList) (("2").toList)
      [("a").toList] [("b").toList] rfl rfl rfl rfl rfl rfl (by decide)
  · exact claim_C7.2.1 Scenario.codegeneration _ _ (("A").toList) (("B").toList)
      [("x=1").toList] [("y=2").toList] (Or.inl rfl) rfl rfl rfl rfl (by decide)
  · exact claim_C7.2.2 _ _ (("s_2_a").toList) (("s_10_b").toList)
      (("2").toList) (("10").toList) 2 10
      [("v=2").toList] [("v=10").toList] rfl rfl rfl rfl rfl rfl rfl rfl (by decide)

/-- C8: alignment round-trip. For a mapping-shaped candidate collection of
N records whose scenario keys are all derivable, whose candidate fields are
all present, and whose keys are pairwise distinct (as the benchmark keys
they mirror are), alignment succeeds with a sequence of length N, processed
in ascending key order, and the result is the same for every input
ordering of the records. -/
theorem claim_C8 (sc : Scenario) (ds ds' : List Dict) (N : Nat)
    (hlen : ds.length = N)
    (hperm : ds'.Perm ds)
    (hkeys : ∀ d ∈ ds, exOkB (scKeyE sc d) = true)
    (hflds : ∀ d ∈ ds, exOkB (scFieldE sc d) = true)
    (hnd : (ds.map (keyPure sc)).Nodup) :
    ∃ out : List (List PyStr), alignDicts sc ds = Except.ok out ∧
      alignDicts sc ds' = Except.ok out ∧
      out.length = N ∧
      ∃ rs : List Dict, rs.Perm ds ∧
        (rs.map (keyPure sc)).Pairwise (fun k k' => SKey.leB k k' = true) ∧
        out = rs.map (fun d => (fieldPure sc d).map clean_code_output) := by
  have hkeys' : ∀ d ∈ ds', exOkB (scKeyE sc d) = true :=
    fun d hd => hkeys d (hperm.subset hd)
  have hflds' : ∀ d ∈ ds', exOkB (scFieldE sc d) = true :=
    fun d hd => hflds d (hperm.subset hd)
  have h1 := alignDicts_ok sc ds hkeys hflds
  have h1' := alignDicts_ok sc ds' hkeys' hflds'
  have hsort := sortPairs_of_perm ds ds' sc hperm hnd
  rw [hsort] at h1'
  set rs := (sortPairs (ds.map (fun d => (keyPure sc d, d)))).map Prod.snd with hrs
  have hrsperm : rs.Perm ds := by
    have hp := (sortPairs_perm (ds.map (fun d => (keyPure sc d, d)))).map Prod.snd
    rw [hrs]
    refine hp.trans ?_
    have hid : (Prod.snd ∘ fun d => ((keyPure sc d, d) : SKey × Dict)) = id :=
      funext fun d => rfl
    rw [List.map_map, hid, List.map_id]
  have hinv : ∀ p ∈ sortPairs (ds.map (fun d => (keyPure sc d, d))),
      p.1 = keyPure sc p.2 := by
    intro p hp
    have hp' : p ∈ ds.map (fun d => (keyPure sc d, d)) :=
      (sortPairs_perm _).subset hp
    rcases List.mem_map.mp hp' with ⟨d, _, rfl⟩
    rfl
  have hkeysorted : (rs.map (keyPure sc)).Pairwise (fun k k' => SKey.leB k k' = true) := by
    rw [hrs, List.map_map]
    have hmc : (sortPairs (ds.map (fun d => (keyPure sc d, d)))).map
        (keyPure sc ∘ Prod.snd) =
        (sortPairs (ds.map (fun d => (keyPure sc d, d)))).map Prod.fst :=
      List.map_congr_left (fun p hp => (hinv p hp).symm)
    rw [hmc, List.pairwise_map]
    exact sortPairs_sorted _
  refine ⟨rs.map (fun d => (fieldPure sc d).map clean_code_output),
    h1, h1', ?_, rs, hrsperm, hkeysorted, rfl⟩
  rw [List.length_map, hrsperm.length_eq, hlen]

/-- Concrete instantiation of `claim_C8`: a two-record code-generation
collection aligns to the same output in either input order. -/
theorem claim_C8_witness :
    ∃ out : List (List PyStr),
      alignDicts Scenario.codegeneration
        [{ question_id := some (("A").toList), code_list := some [("x=1").toList] },
         { question_id := some (("B").toList), code_list := some [("y=2").toList] }] =
        Except.ok out ∧
      alignDicts Scenario.codegeneration
        [{ question_id := some (("B").toList), code_list := some [("y=2").toList] },
         { question_id := some (("A").toList), code_list := some [("x=1").toList] }] =
        Except.ok out ∧
      out.length = 2 ∧
      ∃ rs : List Dict,
        rs.Perm
          [{ question_id := some (("A").toList), code_list := some [("x=1").toList] },
           { question_id := some (("B").toList), code_list := some [("y=2").toList] }] ∧
        (rs.map (keyPure Scenario.codegeneration)).Pairwise
          (fun k k' => SKey.leB k k' = true) ∧
        out = rs.map (fun d =>
          (fieldPure Scenario.codegeneration d).map clean_code_output) :=
  claim_C8 Scenario.codegeneration
    [{ question_id := some (("A").toList), code_list := some [("x=1").toList] },
     { question_id := some (("B").toList), code_list := some [("y=2").toList] }]
    [{ question_id := some (("B").toList), code_list := some [("y=2").toList] },
     { question_id := some (("A").toList), code_list := some [("x=1").toList] }]
    2 rfl (List.Perm.swap _ _ _) (by decide) (by decide) (by decide)

/-- C9: without an explicit save name, the primary output path is the input
file path with its final five characters removed — whatever they are, with
no check that they spell `.json` — followed by an underscore, the scenario
value, and `_output.json`. -/
theorem claim_C9 (sc : Scenario) (stem t : PyStr) (h5 : t.length = 5) :
    derive_output_path none (stem ++ t) sc =
      stem ++ ("_").toList ++ Scenario.value sc ++ ("_output.json").toList := by
  unfold derive_output_path
  have hl : (stem ++ t).length - 5 = stem.length := by
    simp [List.length_append, h5]
  rw [hl, List.take_left]

/-- Concrete instantiation of `claim_C9`: the removed suffix `_temp` is not
`.json`, yet the derivation proceeds identically. -/
theorem claim_C9_witness :
    derive_output_path none (("results").toList ++ ("_temp").toList)
        Scenario.codegeneration =
      ("results").toList ++ ("_").toList ++ Scenario.value Scenario.codegeneration
        ++ ("_output.json").toList :=
  claim_C9 Scenario.codegeneration (("results").toList) (("_temp").toList) rfl

theorem raGo_ge (pat rep : PyStr) :
    ∀ (l : PyStr) (k : Nat), l.length ≤ k → raGo pat rep k l = []
  | [], k, _ => by cases k <;> rfl
  | c :: rest, Nat.succ n, h =>
    raGo_ge pat rep rest n (by simpa using h)
  | c :: rest, 0, h => by simp at h

theorem replace_append (pat rep : PyStr) (hne : pat ≠ []) :
    ∀ stem : PyStr,
      (∀ i, i < stem.length → pat.isPrefixOf ((stem ++ pat).drop i) = false) →
      raGo pat rep 0 (stem ++ pat) = stem ++ rep
  | [], _ => by
    cases pat with
    | nil => exact absurd rfl hne
    | cons p ps =>
      have hpre : (p :: ps).isPrefixOf (p :: ps) = true :=
        List.isPrefixOf_iff_prefix.mpr (List.prefix_refl _)
      have hskip : raGo (p :: ps) rep ((p :: ps).length - 1) ps = [] :=
        raGo_ge (p :: ps) rep ps ((p :: ps).length - 1) (by simp)
      simp only [List.nil_append, raGo, List.append_eq, hpre, and_true, ne_eq,
        reduceCtorEq, not_false_eq_true, if_true, hskip, List.append_nil]
  | c :: stem', H => by
    have h0 : pat.isPrefixOf (c :: (stem' ++ pat)) = false := by
      have h := H 0 (by simp)
      simpa using h
    have H' : ∀ i, i < stem'.length →
        pat.isPrefixOf ((stem' ++ pat).drop i) = false := by
      intro i hi
      have h := H (i + 1) (by simp; omega)
      simpa using h
    have ih := replace_append pat rep hne stem' H'
    have hstep : raGo pat rep 0 ((c :: stem') ++ pat) =
        c :: raGo pat rep 0 (stem' ++ pat) := by
      simp only [List.cons_append, raGo, List.append_eq, h0, Bool.false_eq_true,
        and_false, if_false]
    rw [hstep, ih]
    rfl

/-- C10: the metrics and per-instance paths replace every occurrence of
`.json` in the primary path by `_eval.json` / `_eval_all.json`; when
`.json` occurs exactly once, as the final suffix, the derived paths share
the primary stem, and a path with several occurrences is rewritten at each
one. -/
theorem claim_C10 :
    (∀ stem : PyStr,
      (∀ i, i < stem.length →
        ((".json").toList).isPrefixOf ((stem ++ (".json").toList).drop i) = false) →
      eval_output_path (stem ++ (".json").toList) = stem ++ ("_eval.json").toList ∧
      eval_all_output_path (stem ++ (".json").toList) =
        stem ++ ("_eval_all.json").toList) ∧
    eval_output_path ((".json/a.json").toList) =
      ("_eval.json/a_eval.json").toList ∧
    eval_all_output_path ((".json/a.json").toList) =
      ("_eval_all.json/a_eval_all.json").toList := by
  refine ⟨?_, rfl, rfl⟩
  intro stem H
  exact ⟨replace_append ((".json").toList) (("_eval.json").toList) (by decide) stem H,
    replace_append ((".json").toList) (("_eval_all.json").toList) (by decide) stem H⟩

/-- Concrete instantiation of `claim_C10` at the stem `results`. -/
theorem claim_C10_witness :
    eval_output_path ((("results").toList) ++ ((".json").toList)) =
      (("results").toList) ++ (("_eval.json").toList) ∧
    eval_all_output_path ((("results").toList) ++ ((".json").toList)) =
      (("results").toList) ++ (("_eval_all.json").toList) :=
  (claim_C10.1 (("results").toList) (by decide))

/-- C6: `is_valid_python` is total — it returns a Boolean on every input
and never propagates an exception, because the only failure mode of the
modelled parser interface is the `SyntaxError` that the function catches;
the spec's two cited programs evaluate as stated. -/
theorem claim_C6 :
    (∀ code : PyStr, ∃ b : Bool, is_valid_python code = Except.ok b) ∧
    is_valid_python (("def f():\n    return 1").toList) = Except.ok true ∧
    is_valid_python (("def f(:").toList) = Except.ok false := by
  refine ⟨?_, rfl, rfl⟩
  intro code
  exact ⟨is_valid_pythonB code, is_valid_python_eq code⟩

theorem dropWhile_head_false (p : α → Bool) :
    ∀ (l : List α) (c : α) (t : List α), l.dropWhile p = c :: t → p c = false
  | [], _, _, h => by simp at h
  | a :: as, c, t, h => by
    by_cases ha : p a
    · rw [List.dropWhile_cons_of_pos ha] at h
      exact dropWhile_head_false p as c t h
    · rw [List.dropWhile_cons_of_neg ha] at h
      cases h
      exact Bool.eq_false_iff.mpr ha

theorem dropWhile_idem (p : α → Bool) (l : List α) :
    (l.dropWhile p).dropWhile p = l.dropWhile p := by
  cases h : l.dropWhile p with
  | nil => rfl
  | cons c t =>
    rw [List.dropWhile_cons_of_neg]
    rw [dropWhile_head_false p l c t h]
    exact Bool.false_ne_true

theorem pyStrip_within (l : PyStr) : pyStrip l <:+: l := by
  have h1 : l.dropWhile pySpaceB <:+ l := List.dropWhile_suffix pySpaceB
  have h2 : (l.dropWhile pySpaceB).reverse.dropWhile pySpaceB <:+
      (l.dropWhile pySpaceB).reverse := List.dropWhile_suffix pySpaceB
  have h3 : ((l.dropWhile pySpaceB).reverse.dropWhile pySpaceB).reverse <+:
      l.dropWhile pySpaceB := by
    apply List.reverse_suffix.mp
    rw [List.reverse_reverse]
    exact h2
  exact h3.isInfix.trans h1.isInfix

theorem pyStrip_strip_left (l : PyStr) :
    (pyStrip l).dropWhile pySpaceB = pyStrip l := by
  have hdef : pyStrip l = ((l.dropWhile pySpaceB).reverse.dropWhile pySpaceB).reverse := rfl
  cases hu : l.dropWhile pySpaceB with
  | nil => rw [hdef, hu]; rfl
  | cons c t =>
    have hc : pySpaceB c = false := dropWhile_head_false pySpaceB l c t hu
    rw [hdef, hu]
    cases hw : (c :: t).reverse.dropWhile pySpaceB with
    | nil => rfl
    | cons w ws =>
      have hsuf : w :: ws <:+ (c :: t).reverse := hw ▸ List.dropWhile_suffix pySpaceB
      rcases hsuf with ⟨s, hs⟩
      have hrev : (w :: ws).reverse ++ s.reverse = c :: t := by
        rw [← List.reverse_append, hs, List.reverse_reverse]
      cases hrw : (w :: ws).reverse with
      | nil => simp at hrw
      | cons v vs =>
        rw [hrw] at hrev
        have hvc : v = c := by
          have hh := congrArg (fun x => x.head?) hrev
          simpa using hh
        apply List.dropWhile_cons_of_neg
        rw [hvc, hc]
        exact Bool.false_ne_true

theorem pyStrip_idem (l : PyStr) : pyStrip (pyStrip l) = pyStrip l := by
  have h1 : pyStrip (pyStrip l) =
      ((pyStrip l).reverse.dropWhile pySpaceB).reverse := by
    show (((pyStrip l).dropWhile pySpaceB).reverse.dropWhile pySpaceB).reverse = _
    rw [pyStrip_strip_left]
  have h2 : (pyStrip l).reverse.dropWhile pySpaceB = (pyStrip l).reverse := by
    have hrv : (pyStrip l).reverse =
        (l.dropWhile pySpaceB).reverse.dropWhile pySpaceB := by
      show (((l.dropWhile pySpaceB).reverse.dropWhile pySpaceB).reverse).reverse = _
      rw [List.reverse_reverse]
    rw [hrv, dropWhile_idem]
  rw [h1, h2, List.reverse_reverse]

theorem fi_some_prefix (pat : PyStr) :
    ∀ (l : PyStr) (k : Nat), firstIdx pat l = some k →
      pat.isPrefixOf (l.drop k) = true
  | [], k, h => by
    unfold firstIdx at h
    by_cases hp : pat.isEmpty
    · rw [if_pos hp] at h
      cases h
      cases pat with
      | nil => rfl
      | cons p ps => simp [List.isEmpty] at hp
    · rw [if_neg hp] at h
      cases h
  | c :: rest, k, h => by
    unfold firstIdx at h
    by_cases hp : pat.isPrefixOf (c :: rest) = true
    · rw [if_pos hp] at h
      cases h
      exact hp
    · rw [if_neg hp] at h
      cases hfi : firstIdx pat rest with
      | none => rw [hfi] at h; cases h
      | some k' =>
        rw [hfi] at h
        cases h
        exact fi_some_prefix pat rest k' hfi

theorem fi_some_min (pat : PyStr) :
    ∀ (l : PyStr) (k : Nat), firstIdx pat l = some k →
      ∀ i, i < k → pat.isPrefixOf (l.drop i) = false
  | [], k, h, i, hik => by
    unfold firstIdx at h
    by_cases hp : pat.isEmpty
    · rw [if_pos hp] at h
      cases h
      omega
    · rw [if_neg hp] at h
      cases h
  | c :: rest, k, h, i, hik => by
    unfold firstIdx at h
    by_cases hp : pat.isPrefixOf (c :: rest) = true
    · rw [if_pos hp] at h
      cases h
      omega
    · rw [if_neg hp] at h
      cases hfi : firstIdx pat rest with
      | none => rw [hfi] at h; cases h
      | some k' =>
        rw [hfi] at h
        cases h
        cases i with
        | zero =>
          simpa using Bool.eq_false_iff.mpr hp
        | succ i' =>
          have hik' : i' + 1 < k' + 1 := by simpa using hik
          exact fi_some_min pat rest k' hfi i' (by omega)

theorem fi_none (pat : PyStr) :
    ∀ l : PyStr, firstIdx pat l = none →
      ∀ i, pat.isPrefixOf (l.drop i) = false
  | [], h, i => by
    unfold firstIdx at h
    by_cases hp : pat.isEmpty
    · rw [if_pos hp] at h
      cases h
    · rw [if_neg hp] at h
      cases pat with
      | nil => simp [List.isEmpty] at hp
      | cons p ps => simp
  | c :: rest, h, i => by
    unfold firstIdx at h
    by_cases hp : pat.isPrefixOf (c :: rest) = true
    · rw [if_pos hp] at h
      cases h
    · rw [if_neg hp] at h
      cases hfi : firstIdx pat rest with
      | some k' => rw [hfi] at h; cases h
      | none =>
        cases i with
        | zero => simpa using Bool.eq_false_iff.mpr hp
        | succ i' => exact fi_none pat rest hfi i'

theorem fi_at_append (p : Char) (ps : PyStr) :
    ∀ (content post : PyStr),
      (∀ j, j < content.length →
        (p :: ps).isPrefixOf ((content ++ (p :: ps) ++ post).drop j) = false) →
      firstIdx (p :: ps) (content ++ (p :: ps) ++ post) = some content.length
  | [], post, _ => by
    have hpre : (p :: ps).isPrefixOf (p :: (ps ++ post)) = true := by
      apply List.isPrefixOf_iff_prefix.mpr
      exact List.prefix_append (p :: ps) post
    simp only [List.nil_append, List.cons_append, List.append_eq, firstIdx,
      hpre, if_true, List.length_nil]
  | c :: content', post, H => by
    have h0 : (p :: ps).isPrefixOf
        (c :: (content' ++ (p :: ps) ++ post)) = false := by
      have h := H 0 (by simp)
      simpa using h
    have H' : ∀ j, j < content'.length →
        (p :: ps).isPrefixOf ((content' ++ (p :: ps) ++ post).drop j) = false := by
      intro j hj
      have h := H (j + 1) (by simp; omega)
      simpa using h
    have ih := fi_at_append p ps content' post H'
    have hstep : firstIdx (p :: ps) ((c :: content') ++ (p :: ps) ++ post) =
        (firstIdx (p :: ps) (content' ++ (p :: ps) ++ post)).map (· + 1) := by
      simp only [List.cons_append, List.append_eq, firstIdx, h0,
        Bool.false_eq_true, if_false]
    rw [hstep, ih]
    simp

/-- Whether the fenced-block regex can match anywhere in the text: some
position carries the opening delimiter with a closing delimiter after it. -/
def CanMatch (l : PyStr) : Prop :=
  ∃ p k, openTagL.isPrefixOf (l.drop p) = true ∧
    closeTagL.isPrefixOf (l.drop (p + openTagL.length + k)) = true

theorem openTag_not_nil : openTagL.isPrefixOf ([] : PyStr) = false := rfl

theorem closeTag_not_nil : closeTagL.isPrefixOf ([] : PyStr) = false := rfl

theorem fs_cons (c : Char) (rest : PyStr) :
    fencedSearch (c :: rest) =
      (if openTagL.isPrefixOf (c :: rest) then
        (match firstIdx closeTagL ((c :: rest).drop openTagL.length) with
        | some k => some (((c :: rest).drop openTagL.length).take k)
        | none => fencedSearch rest)
      else fencedSearch rest) := rfl

theorem canMatch_cons_shift (c : Char) (rest : PyStr) :
    CanMatch rest → CanMatch (c :: rest) := by
  rintro ⟨p, k, h1, h2⟩
  refine ⟨p + 1, k, ?_, ?_⟩
  · simpa using h1
  · have heq : p + 1 + openTagL.length + k = (p + openTagL.length + k) + 1 := by omega
    rw [heq]
    simpa using h2

theorem fs_some_can : ∀ (l : PyStr) (content : PyStr),
    fencedSearch l = some content → CanMatch l
  | [], _, h => by simp [fencedSearch] at h
  | c :: rest, content, h => by
    rw [fs_cons] at h
    by_cases hpre : openTagL.isPrefixOf (c :: rest) = true
    · rw [if_pos hpre] at h
      cases hfi : firstIdx closeTagL ((c :: rest).drop openTagL.length) with
      | some k =>
        refine ⟨0, k, ?_, ?_⟩
        · simpa using hpre
        · have hcl := fi_some_prefix closeTagL _ k hfi
          rw [List.drop_drop] at hcl
          have heq : 0 + openTagL.length + k = openTagL.length + k := by omega
          rw [heq]
          exact hcl
      | none =>
        rw [hfi] at h
        exact canMatch_cons_shift c rest (fs_some_can rest content h)
    · rw [if_neg hpre] at h
      exact canMatch_cons_shift c rest (fs_some_can rest content h)

theorem fs_none_not_can : ∀ l : PyStr,
    fencedSearch l = none → ¬ CanMatch l
  | [], _ => by
    rintro ⟨p, k, h1, _⟩
    rw [List.drop_nil] at h1
    rw [openTag_not_nil] at h1
    exact Bool.false_ne_true h1
  | c :: rest, h => by
    rintro ⟨p, k, h1, h2⟩
    rw [fs_cons] at h
    by_cases hpre : openTagL.isPrefixOf (c :: rest) = true
    · rw [if_pos hpre] at h
      cases hfi : firstIdx closeTagL ((c :: rest).drop openTagL.length) with
      | some k' => rw [hfi] at h; cases h
      | none =>
        rw [hfi] at h
        cases p with
        | zero =>
          have hall := fi_none closeTagL _ hfi k
          rw [List.drop_drop] at hall
          have heq : 0 + openTagL.length + k = openTagL.length + k := by omega
          rw [heq] at h2
          rw [hall] at h2
          exact Bool.false_ne_true h2
        | succ p' =>
          refine fs_none_not_can rest h ⟨p', k, ?_, ?_⟩
          · simpa using h1
          · have heq : p' + openTagL.length + k =
                (p' + 1 + openTagL.length + k) - 1 := by omega
            rw [heq]
            have heq2 : (c :: rest).drop (p' + 1 + openTagL.length + k) =
                rest.drop ((p' + 1 + openTagL.length + k) - 1) := by
              have h3 : p' + 1 + openTagL.length + k =
                  ((p' + 1 + openTagL.length + k) - 1) + 1 := by omega
              rw [h3, List.drop_succ_cons]
              congr 1
            rw [← heq2]
            exact h2
    · rw [if_neg hpre] at h
      cases p with
      | zero =>
        rw [List.drop_zero] at h1
        exact hpre h1
      | succ p' =>
        refine fs_none_not_can rest h ⟨p', k, ?_, ?_⟩
        · simpa using h1
        · have heq2 : (c :: rest).drop (p' + 1 + openTagL.length + k) =
              rest.drop (p' + openTagL.length + k) := by
            have h3 : p' + 1 + openTagL.length + k =
                (p' + openTagL.length + k) + 1 := by omega
            rw [h3, List.drop_succ_cons]
          rw [← heq2]
          exact h2

theorem fs_not_can_none (l : PyStr) (h : ¬ CanMatch l) : fencedSearch l = none := by
  cases hfs : fencedSearch l with
  | none => rfl
  | some c => exact absurd (fs_some_can l c hfs) h

theorem isPrefixOf_nil_pat (pat : PyStr) (hne : pat ≠ [])
    (h : pat.isPrefixOf ([] : PyStr) = true) : False := by
  cases pat with
  | nil => exact hne rfl
  | cons p ps => simp [List.isPrefixOf] at h

theorem shift_prefix (pat : PyStr) (hne : pat ≠ []) (y s t x : PyStr) (i : Nat)
    (hpre : pat.isPrefixOf (y.drop i) = true)
    (hx : s ++ y ++ t = x) :
    pat.isPrefixOf (x.drop (s.length + i)) = true := by
  have hiy : i ≤ y.length := by
    by_contra hgt
    rw [List.drop_eq_nil_of_le (by omega)] at hpre
    exact isPrefixOf_nil_pat pat hne hpre
  have hx' : x = s ++ (y ++ t) := by rw [← hx, List.append_assoc]
  rw [hx']
  have hd1 : (s ++ (y ++ t)).drop (s.length + i) = (y ++ t).drop i := by
    rw [List.drop_append_eq_append_drop]
    have h1 : List.drop (s.length + i) s = [] :=
      List.drop_eq_nil_of_le (by omega)
    rw [h1, List.nil_append]
    congr 1
    omega
  rw [hd1, List.drop_append_of_le_length hiy]
  apply List.isPrefixOf_iff_prefix.mpr
  exact (List.isPrefixOf_iff_prefix.mp hpre).trans (List.prefix_append _ t)

theorem canMatch_mono (y x : PyStr) (hin : y <:+: x) (hc : CanMatch y) :
    CanMatch x := by
  rcases hc with ⟨p, k, h1, h2⟩
  rcases hin with ⟨s, t, hst⟩
  refine ⟨s.length + p, k, ?_, ?_⟩
  · exact shift_prefix openTagL (by decide) y s t x p h1 hst
  · have heq : s.length + p + openTagL.length + k =
        s.length + (p + openTagL.length + k) := by omega
    rw [heq]
    exact shift_prefix closeTagL (by decide) y s t x _ h2 hst

theorem fs_some_within : ∀ (l content : PyStr),
    fencedSearch l = some content → content <:+: l
  | [], _, h => by simp [fencedSearch] at h
  | c :: rest, content, h => by
    rw [fs_cons] at h
    by_cases hpre : openTagL.isPrefixOf (c :: rest) = true
    · rw [if_pos hpre] at h
      cases hfi : firstIdx closeTagL ((c :: rest).drop openTagL.length) with
      | some k =>
        rw [hfi] at h
        cases h
        have ht : ((c :: rest).drop openTagL.length).take k <+:
            (c :: rest).drop openTagL.length := List.take_prefix k _
        have hd : (c :: rest).drop openTagL.length <:+ c :: rest :=
          List.drop_suffix openTagL.length _
        exact ht.isInfix.trans hd.isInfix
      | none =>
        rw [hfi] at h
        exact List.infix_cons (fs_some_within rest content h)
    · rw [if_neg hpre] at h
      exact List.infix_cons (fs_some_within rest content h)

theorem fs_some_noclose : ∀ (l content : PyStr),
    fencedSearch l = some content →
      ∀ i, closeTagL.isPrefixOf (content.drop i) = false
  | [], _, h, _ => by simp [fencedSearch] at h
  | c :: rest, content, h, i => by
    rw [fs_cons] at h
    by_cases hpre : openTagL.isPrefixOf (c :: rest) = true
    · rw [if_pos hpre] at h
      cases hfi : firstIdx closeTagL ((c :: rest).drop openTagL.length) with
      | some k =>
        rw [hfi] at h
        cases h
        by_cases hik : i < k
        · rw [Bool.eq_false_iff]
          intro hcon
          have hmin := fi_some_min closeTagL _ k hfi i hik
          rw [List.drop_take] at hcon
          have hpref : closeTagL <+:
              ((c :: rest).drop openTagL.length).drop i :=
            (List.isPrefixOf_iff_prefix.mp hcon).trans (List.take_prefix _ _)
          rw [List.isPrefixOf_iff_prefix.mpr hpref] at hmin
          exact Bool.false_ne_true hmin.symm
        · rw [List.drop_eq_nil_of_le]
          · exact closeTag_not_nil
          · have := List.length_take_le k ((c :: rest).drop openTagL.length)
            omega
      | none =>
        rw [hfi] at h
        exact fs_some_noclose rest content h i
    · rw [if_neg hpre] at h
      exact fs_some_noclose rest content h i

/-- C5: `clean_code_output` is idempotent. A match's captured content
contains no closing delimiter, and stripping only shortens the text, so a
second pass finds no fenced block and strips nothing further. -/
theorem claim_C5 (l : PyStr) :
    clean_code_output (clean_code_output l) = clean_code_output l := by
  cases hfs : fencedSearch l with
  | none =>
    have hcl : clean_code_output l = pyStrip l := by
      simp [clean_code_output, hfs]
    have hnc : ¬ CanMatch l := fs_none_not_can l hfs
    have hnc2 : ¬ CanMatch (pyStrip l) := fun hc =>
      hnc (canMatch_mono (pyStrip l) l (pyStrip_within l) hc)
    have hfs2 : fencedSearch (pyStrip l) = none := fs_not_can_none _ hnc2
    rw [hcl]
    simp [clean_code_output, hfs2, pyStrip_idem]
  | some content =>
    have hcl : clean_code_output l = pyStrip content := by
      simp [clean_code_output, hfs]
    have hnoclose := fs_some_noclose l content hfs
    have hnc2 : ¬ CanMatch (pyStrip content) := by
      rintro ⟨p, k, h1, h2⟩
      rcases pyStrip_within content with ⟨s, t, hst⟩
      have hsh := shift_prefix closeTagL (by decide) (pyStrip content) s t content
        (p + openTagL.length + k) h2 hst
      rw [hnoclose] at hsh
      exact Bool.false_ne_true hsh
    have hfs2 : fencedSearch (pyStrip content) = none := fs_not_can_none _ hnc2
    rw [hcl]
    simp [clean_code_output, hfs2, pyStrip_idem]

theorem fs_open_append (R : PyStr) :
    fencedSearch (openTagL ++ R) =
      (match firstIdx closeTagL R with
      | some k => some (R.take k)
      | none => fencedSearch (("``python\n").toList ++ R)) := by
  have hoc : openTagL ++ R = Char.ofNat 96 :: (("``python\n").toList ++ R) := rfl
  have hpre : openTagL.isPrefixOf (Char.ofNat 96 :: (("``python\n").toList ++ R)) = true := by
    rw [← hoc]
    exact List.isPrefixOf_iff_prefix.mpr (List.prefix_append _ _)
  have hdrop : (Char.ofNat 96 :: (("``python\n").toList ++ R)).drop openTagL.length = R := by
    rw [← hoc]
    exact List.drop_left _ _
  rw [hoc, fs_cons, if_pos hpre, hdrop]

theorem fi_close_append (content post : PyStr)
    (H : ∀ j, j < content.length →
      closeTagL.isPrefixOf ((content ++ closeTagL ++ post).drop j) = false) :
    firstIdx closeTagL (content ++ closeTagL ++ post) = some content.length := by
  have hcc : closeTagL = '\n' :: ("```").toList := rfl
  rw [hcc] at H ⊢
  exact fi_at_append '\n' (("```").toList) content post H

theorem fs_exact : ∀ (pre content post : PyStr),
    (∀ i, i < pre.length →
      openTagL.isPrefixOf ((pre ++ openTagL ++ content ++ closeTagL ++ post).drop i) = false) →
    (∀ j, j < content.length →
      closeTagL.isPrefixOf ((content ++ closeTagL ++ post).drop j) = false) →
    fencedSearch (pre ++ openTagL ++ content ++ closeTagL ++ post) = some content
  | [], content, post, _, H2 => by
    have hassoc : [] ++ openTagL ++ content ++ closeTagL ++ post =
        openTagL ++ (content ++ closeTagL ++ post) := by
      simp [List.append_assoc]
    rw [hassoc, fs_open_append, fi_close_append content post H2]
    have htake : (content ++ closeTagL ++ post).take content.length = content := by
      have h2 : content ++ closeTagL ++ post = content ++ (closeTagL ++ post) := by
        simp [List.append_assoc]
      rw [h2]
      exact List.take_left content _
    show some ((content ++ closeTagL ++ post).take content.length) = some content
    rw [htake]
  | c :: pre', content, post, H1, H2 => by
    have hform : (c :: pre') ++ openTagL ++ content ++ closeTagL ++ post =
        c :: (pre' ++ openTagL ++ content ++ closeTagL ++ post) := rfl
    have h0 : openTagL.isPrefixOf
        ((c :: pre') ++ openTagL ++ content ++ closeTagL ++ post) = false := by
      have h := H1 0 (by simp)
      simpa using h
    rw [hform] at h0
    have H1' : ∀ i, i < pre'.length →
        openTagL.isPrefixOf
          ((pre' ++ openTagL ++ content ++ closeTagL ++ post).drop i) = false := by
      intro i hi
      have h := H1 (i + 1) (by simp; omega)
      rw [hform] at h
      simpa using h
    rw [hform, fs_cons, if_neg (Bool.eq_false_iff.mp h0)]
    exact fs_exact pre' content post H1' H2

/-- C4 counterexample: the regex recognizes only the tag `python`; a fenced
block with another language tag is returned unchanged, not unwrapped. -/
theorem claim_C4_counterexample :
    clean_code_output (("```cpp\nx\n```").toList) = ("```cpp\nx\n```").toList ∧
    ("```cpp\nx\n```").toList ≠ ("x").toList := by
  exact ⟨rfl, by decide⟩

/-- C4 (amended): for every input containing a fenced block tagged
`python` specifically — the opening delimiter being its leftmost occurrence
with a closing delimiter after it, and the content containing no closing
delimiter — `clean_code_output` returns exactly the enclosed content,
whitespace-trimmed, regardless of surrounding prose; for every input in
which the pattern can match nowhere, the input is returned unchanged except
for whitespace trimming. -/
theorem claim_C4_amended :
    (∀ pre content post : PyStr,
      (∀ i, i < pre.length →
        openTagL.isPrefixOf
          ((pre ++ openTagL ++ content ++ closeTagL ++ post).drop i) = false) →
      (∀ j, j < content.length →
        closeTagL.isPrefixOf ((content ++ closeTagL ++ post).drop j) = false) →
      clean_code_output (pre ++ openTagL ++ content ++ closeTagL ++ post) =
        pyStrip content) ∧
    (∀ l : PyStr,
      (∀ p, p ≤ l.length → ∀ k, k ≤ l.length →
        ¬(openTagL.isPrefixOf (l.drop p) = true ∧
          closeTagL.isPrefixOf (l.drop (p + openTagL.length + k)) = true)) →
      clean_code_output l = pyStrip l) := by
  constructor
  · intro pre content post H1 H2
    have hfs := fs_exact pre content post H1 H2
    unfold clean_code_output
    rw [hfs]
  · intro l H
    have hnc : ¬ CanMatch l := by
      rintro ⟨p, k, h1, h2⟩
      have hp : p ≤ l.length := by
        by_contra hgt
        rw [List.drop_eq_nil_of_le (by omega)] at h1
        rw [openTag_not_nil] at h1
        exact Bool.false_ne_true h1
      have hk : k ≤ l.length := by
        by_contra hgt
        rw [List.drop_eq_nil_of_le (by omega)] at h2
        rw [closeTag_not_nil] at h2
        exact Bool.false_ne_true h2
      exact H p hp k hk ⟨h1, h2⟩
    have hfs := fs_not_can_none l hnc
    unfold clean_code_output
    rw [hfs]

/-- Concrete instantiation of `claim_C4_amended`: a fenced `python` block
surrounded by prose is unwrapped and trimmed; a text in which the pattern
cannot match is returned as is. -/
theorem claim_C4_amended_witness :
    clean_code_output ((("Sure:\n").toList ++ openTagL ++ ("x = 1").toList
        ++ closeTagL ++ (" ok").toList)) = ("x = 1").toList ∧
    clean_code_output (("no code here").toList) = ("no code here").toList := by
  constructor
  · exact claim_C4_amended.1 (("Sure:\n").toList) (("x = 1").toList)
      ((" ok").toList) (by decide) (by decide)
  · exact claim_C4_amended.2 (("no code here").toList) (by decide)
